import Mathlib

/-!
Shallow embedding of the name-resolution core of
`src/code/codex_qguide_gender.py` (class `HarvardQResolver`), together with
proofs about the claims of the specification.

Conventions of the embedding:
* Python strings are `String`/`List Char`; the Unicode character classes used
  by the source (`\s`, `\w`, the letter class `[^\W\d_]`, `str.lower`,
  `str.upper`, `str.isupper`, `str.isdigit`) are modelled by their ASCII
  restrictions, which agree with Python on every input appearing in the
  claims.
* The regular-expression engine is modelled by an explicit backtracking
  matcher whose alternatives are enumerated in Python's preference order
  (leftmost position first; greedy quantifiers longest-first; `finditer`
  resumes scanning at the end of the previous match).
* Side effects of the fetcher (`time.sleep`, `logging`) are modelled as an
  explicit event trace; the sequence of HTTP attempt outcomes is an oracle
  `Nat → AttemptOutcome`.
-/

/-- ASCII restriction of Python's `\s` class (`str.strip` whitespace). -/
def isSpaceCh (c : Char) : Bool :=
  c = ' ' || c = '\t' || c = '\n' || c = '\r' || c = '\x0b' || c = '\x0c'

/-- ASCII restriction of the source's letter class `LETTER_CLASS = [^\W\d_]`. -/
def isLetterCh (c : Char) : Bool := c.isAlpha

/-- ASCII restriction of Python's `\w` (used for the `\b` word boundary). -/
def isWordCh (c : Char) : Bool := c.isAlpha || c.isDigit || c = '_'

/-- The interior separators allowed inside a name token: `['’\-]`. -/
def isSepCh (c : Char) : Bool := c = '\'' || c = '’' || c = '-'

/-- ASCII restriction of Python's per-character `str.lower`. -/
def lowCh (c : Char) : Char := c.toLower

/-- ASCII restriction of Python's per-character `str.upper`: map a basic
latin lowercase letter to its uppercase form, leave everything else. -/
def upCh (c : Char) : Char :=
  if 97 ≤ c.toNat ∧ c.toNat ≤ 122 then Char.ofNat (c.toNat - 32) else c

/-- Concat-map over lists (kept local so that its membership lemma is
available independent of library naming). -/
def catMaps {α β : Type} (f : α → List β) : List α → List β
  | [] => []
  | a :: as => f a ++ catMaps f as

/-- Substring test (`needle in hay` on Python strings, after whatever case
folding the caller applies). -/
def isPrefixL : List Char → List Char → Bool
  | [], _ => true
  | _ :: _, [] => false
  | a :: as, b :: bs => a = b && isPrefixL as bs

def containsSub (needle : List Char) : List Char → Bool
  | [] => isPrefixL needle []
  | b :: bs => isPrefixL needle (b :: bs) || containsSub needle bs

/-- Python `str.strip()` (ASCII whitespace model): drop leading and trailing
whitespace. -/
def stripChars (l : List Char) : List Char :=
  ((l.dropWhile isSpaceCh).reverse.dropWhile isSpaceCh).reverse

def stripStr (s : String) : String := String.mk (stripChars s.toList)

def lowerL (l : List Char) : List Char := l.map lowCh

/-! ### `_normalize_last_name`

`re.sub(r"\s*\([^)]*\)\s*$", "", last_name).strip()`: if the last name ends
with a parenthetical (whose body contains no `)`), optionally surrounded by
whitespace, that suffix is removed before the final strip.  The substitution
site is the leftmost match, i.e. the leftmost `(` after which no `)` occurs
other than the final one. -/

/-- Does `rest` (the characters after a candidate `(`) consist of a
`)`-free body, a `)`, and then only whitespace?  This is exactly the
condition for `\([^)]*\)\s*$` to match at that `(`. -/
def parenTail (rest : List Char) : Bool :=
  match rest.dropWhile (fun c => c ≠ ')') with
  | ')' :: ws => ws.all isSpaceCh
  | _ => false

/-- Index of the leftmost `(` opening a trailing parenthetical. -/
def parenCutIdx : List Char → Option Nat
  | [] => none
  | c :: rest =>
    if c = '(' && parenTail rest then some 0
    else (parenCutIdx rest).map (· + 1)

def normalizeLastNameL (l : List Char) : List Char :=
  match parenCutIdx l with
  | some i => stripChars (l.take i)
  | none => stripChars l

def normalizeLastName (s : String) : String :=
  String.mk (normalizeLastNameL s.toList)

/-! ### The name pattern

`_build_name_pattern` compiles
`\b(?P<first>TOKEN)(?:\.)?\s+(?:TOKEN(?:\.)?\s+){0,3}(?i:LAST)(?!LETTER)`
with `TOKEN = L(?:L|['’\-]L)*`.  The functions below enumerate the
backtracking alternatives of each atom in the engine's preference order and
take the first overall success. -/

/-- Munch the greedy iterations of `(?:L|['’\-]L)*` after an initial letter:
returns the list of iteration chunks (each one or two characters) and the
remaining input. -/
def tokenIters : List Char → List (List Char) × List Char
  | [] => ([], [])
  | c :: rest =>
    if isLetterCh c then
      let p := tokenIters rest
      ([c] :: p.1, p.2)
    else if isSepCh c then
      match rest with
      | d :: rest2 =>
        if isLetterCh d then
          let p := tokenIters rest2
          ([c, d] :: p.1, p.2)
        else ([], c :: rest)
      | [] => ([], [c])
    else ([], c :: rest)

/-- All ways the greedy `TOKEN` can match a prefix, longest first:
dropping trailing star iterations one at a time. -/
def splitsFrom (c : Char) (iters : List (List Char)) (after : List Char) :
    List (List Char × List Char) :=
  (List.range (iters.length + 1)).map (fun i =>
    let k := iters.length - i
    (c :: (iters.take k).flatten, (iters.drop k).flatten ++ after))

def tokenSplits : List Char → List (List Char × List Char)
  | [] => []
  | c :: rest =>
    if isLetterCh c then
      let p := tokenIters rest
      splitsFrom c p.1 p.2
    else []

/-- `(?:\.)?`, greedy: the consuming alternative first. -/
def dotSplits : List Char → List (List Char)
  | '.' :: r => [r, '.' :: r]
  | cs => [cs]

/-- `\s+`, greedy: consume the maximal whitespace run, backtracking one
character at a time (at least one character). -/
def wsSplits (cs : List Char) : List (List Char) :=
  let n := (cs.takeWhile isSpaceCh).length
  (List.range n).map (fun i => cs.drop (n - i))

/-- `(?:TOKEN(?:\.)?\s+){0,k}`, greedy: at every level try consuming another
iteration (with its own backtracking) before stopping. -/
def middleSplits : Nat → List Char → List (List Char)
  | 0, cs => [cs]
  | k + 1, cs =>
    (catMaps (fun p =>
      (catMaps (fun r2 =>
        (catMaps (fun r3 => middleSplits k r3) (wsSplits r2)))
        (dotSplits p.2)))
      (tokenSplits cs)) ++ [cs]

/-- Case-insensitive literal match of the (escaped) last name, `(?i:LAST)`. -/
def matchLitCI : List Char → List Char → Option (List Char)
  | [], cs => some cs
  | _ :: _, [] => none
  | a :: as, b :: bs => if lowCh a = lowCh b then matchLitCI as bs else none

/-- Negative lookahead `(?!LETTER)`. -/
def lookaheadOk : List Char → Bool
  | [] => true
  | c :: _ => !isLetterCh c

/-- Try the pattern at the current position (the `\b` is checked by the
caller); returns the first success in backtracking order as
(captured `first` group, rest of the input after the match). -/
def matchFromHere (last cs : List Char) : Option (List Char × List Char) :=
  (catMaps (fun p =>
    (catMaps (fun r2 =>
      (catMaps (fun r3 =>
        ((middleSplits 3 r3).filterMap (fun r4 =>
          match matchLitCI last r4 with
          | some r5 => if lookaheadOk r5 then some (p.1, r5) else none
          | none => none)))
        (wsSplits r2)))
      (dotSplits p.2)))
    (tokenSplits cs)).head?

/-- Word-character status of the final character of the matched last name
(the character immediately preceding the resumption point of the scan). -/
def lastCharIsWord (l : List Char) : Bool :=
  match l.getLast? with
  | some c => isWordCh c
  | none => false

/-- `pattern.finditer(text)` restricted to the captured `first` groups, in
match order: scan left to right, at word-boundary positions try the pattern,
and resume after the end of each (non-overlapping) match. -/
def scanGo (last : List Char) : Nat → Bool → List Char → List (List Char)
  | 0, _, _ => []
  | _ + 1, _, [] => []
  | fuel + 1, prevWord, c :: rest =>
    if prevWord then scanGo last fuel (isWordCh c) rest
    else
      match matchFromHere last (c :: rest) with
      | some p => p.1 :: scanGo last fuel (lastCharIsWord last) p.2
      | none => scanGo last fuel (isWordCh c) rest

def scanCapturesL (last text : List Char) : List (List Char) :=
  scanGo last (text.length + 1) false text

def scanCaptures (last text : String) : List String :=
  (scanCapturesL last.toList text.toList).map String.mk

/-! ### `_clean_candidate` and `_extract_from_pattern` -/

/-- `_clean_candidate`: strip, remove periods, reject digits/underscores,
uppercase the first character (a one-character candidate is uppercased as a
whole, which coincides).  The source would raise `IndexError` when the
stripped candidate consists only of periods; that case is unreachable from
the matcher (captures never contain a period) and is modelled as `none`. -/
def cleanCandidateL (cand : List Char) : Option (List Char) :=
  let c1 := stripChars cand
  if c1 = [] then none
  else
    let c2 := c1.filter (fun ch => ch ≠ '.')
    if c2.any (fun ch => ch.isDigit || ch = '_') then none
    else
      match c2 with
      | [] => none
      | [c] => some [upCh c]
      | c :: t => some (upCh c :: t)

def cleanCandidate (cand : String) : Option String :=
  (cleanCandidateL cand.toList).map String.mk

/-- `INVALID_FIRST_TOKENS` (lower-cased honorific/role blocklist). -/
def INVALID_FIRST_TOKENS : List (List Char) :=
  (["professor", "prof", "doctor", "dr", "mr", "mrs", "ms", "mx",
    "coach", "dean", "chair", "director", "instructor"].map String.toList)

/-- `cleaned[:1].isupper()` (on a nonempty string, the first character). -/
def headUpper : List Char → Bool
  | [] => false
  | c :: _ => c.isUpper

/-- The filter loop of `_extract_from_pattern` over the captured tokens. -/
def extractLoop (requireCap : Bool) : List (List Char) → Option (List Char)
  | [] => none
  | cand :: rest =>
    if cand = [] then extractLoop requireCap rest
    else
      match cleanCandidateL cand with
      | none => extractLoop requireCap rest
      | some cleaned =>
        if requireCap && !headUpper cleaned then extractLoop requireCap rest
        else if lowerL cleaned ∈ INVALID_FIRST_TOKENS then
          extractLoop requireCap rest
        else some cleaned

def extractFromPatternL (last text : List Char) (requireCap : Bool) :
    Option (List Char) :=
  extractLoop requireCap (scanCapturesL last text)

def extractFromPattern (last text : String) (requireCap : Bool) :
    Option String :=
  (extractFromPatternL last.toList text.toList requireCap).map String.mk

/-- `STRUCTURED_HINTS`. -/
def STRUCTURED_HINTS : List (List Char) :=
  (["feedback", "instructor", "course head", "primary instructor",
    "lecturer"].map String.toList)

/-- `_find_name_in_text`: short-circuit on a case-insensitive substring
test, then the strict pass, then — only when a structural hint occurs in the
lower-cased chunk — the relaxed pass. -/
def findNameInTextL (text lastName : List Char) : Option (List Char) :=
  if text = [] || lastName = [] then none
  else
    let textLower := lowerL text
    let normalized := normalizeLastNameL lastName
    if normalized = [] then none
    else if !containsSub (lowerL normalized) textLower then none
    else
      match extractFromPatternL normalized text true with
      | some f => some f
      | none =>
        if STRUCTURED_HINTS.any (fun h => containsSub h textLower) then
          extractFromPatternL normalized text false
        else none

def findNameInText (text lastName : String) : Option String :=
  (findNameInTextL text.toList lastName.toList).map String.mk

/-! ### Parsed documents and `_candidate_text_chunks`

A parsed HTML document is a tree of elements and text nodes; the
BeautifulSoup object itself is the root element, so every text node has an
enclosing element. -/

inductive HNode where
  | text (s : String)
  | elem (tag : String) (children : List HNode)

/- `soup.select(tag)`: all elements with the given tag, in document
(pre-)order. -/
mutual
def selectTag (tag : String) : HNode → List HNode
  | .text _ => []
  | .elem t cs =>
    (if t = tag then [HNode.elem t cs] else []) ++ selectTagList tag cs
def selectTagList (tag : String) : List HNode → List HNode
  | [] => []
  | n :: ns => selectTag tag n ++ selectTagList tag ns
end

/- All descendant text-node strings, in document order. -/
mutual
def allStrings : HNode → List String
  | .text s => [s]
  | .elem _ cs => allStringsList cs
def allStringsList : List HNode → List String
  | [] => []
  | n :: ns => allStrings n ++ allStringsList ns
end

/- All descendant text nodes paired with their enclosing element
(`node.parent` of a `NavigableString`), in document order. -/
mutual
def textsUnder : HNode → List (String × HNode)
  | .text _ => []
  | .elem t cs => textsIn (HNode.elem t cs) cs
def textsIn (parent : HNode) : List HNode → List (String × HNode)
  | [] => []
  | .text s :: ns => (s, parent) :: textsIn parent ns
  | .elem t cs :: ns => textsUnder (HNode.elem t cs) ++ textsIn parent ns
end

/-- `" ".join(...)`. -/
def joinSep (sep : String) : List String → String
  | [] => ""
  | [x] => x
  | x :: y :: xs => x ++ sep ++ joinSep sep (y :: xs)

/-- `soup.stripped_strings`: each string stripped, empties skipped. -/
def strippedOf (n : HNode) : List String :=
  ((allStrings n).map stripStr).filter (fun s => s ≠ "")

/-- `node.get_text(" ", strip=True)`. -/
def getTextStrip (n : HNode) : String := joinSep " " (strippedOf n)

/-- `re.search` of the five `KEYWORD_PATTERNS` against one text node.  The
plain keywords are case-insensitive substring tests; `Course\s*Head` and
`Primary\s+Instructor` additionally tolerate internal whitespace. -/
def anySuffix (p : List Char → Bool) : List Char → Bool
  | [] => p []
  | c :: rest => p (c :: rest) || anySuffix p rest

def searchCI (pat : String) (l : List Char) : Bool :=
  containsSub (lowerL pat.toList) (lowerL l)

def courseHeadHere (cs : List Char) : Bool :=
  match matchLitCI "course".toList cs with
  | some r1 => (matchLitCI "head".toList (r1.dropWhile isSpaceCh)).isSome
  | none => false

def courseHeadSearch (cs : List Char) : Bool := anySuffix courseHeadHere cs

def primaryInstructorHere (cs : List Char) : Bool :=
  match matchLitCI "primary".toList cs with
  | some r1 =>
    decide (1 ≤ (r1.takeWhile isSpaceCh).length) &&
      (matchLitCI "instructor".toList (r1.dropWhile isSpaceCh)).isSome
  | none => false

def primaryInstructorSearch (cs : List Char) : Bool :=
  anySuffix primaryInstructorHere cs

def keywordMatchers : List (List Char → Bool) :=
  [searchCI "Instructor", searchCI "Instructors", courseHeadSearch,
   primaryInstructorSearch, searchCI "Lecturer"]

/-- The title/heading loop of `_candidate_text_chunks`: all `title`
elements, then `h1`, `h2`, `h3`, each group in document order. -/
def headingTexts (soup : HNode) : List String :=
  catMaps (fun t => (selectTag t soup).map getTextStrip)
    ["title", "h1", "h2", "h3"]

/-- The keyword loop: for each pattern, the enclosing-element text of every
matching text node (`_string_with_parent`), in document order. -/
def keywordTexts (soup : HNode) : List String :=
  catMaps (fun p =>
    ((textsUnder soup).filter (fun ts => p ts.1.toList)).map
      (fun ts => getTextStrip ts.2))
    keywordMatchers

/-- The `seen` bookkeeping of the generator: yield a text only when it is
nonempty and not yielded before. -/
def chunkFold (seen : List String) : List String → List String
  | [] => []
  | x :: xs =>
    if x ≠ "" ∧ ¬x ∈ seen then x :: chunkFold (x :: seen) xs
    else chunkFold seen xs

/-- `_candidate_text_chunks`. -/
def candidateChunks (soup : HNode) : List String :=
  chunkFold [] (headingTexts soup ++ keywordTexts soup)

/-- `_first_n_characters`. -/
def firstN (s : String) (limit : Nat) : String :=
  if s.length ≤ limit then s else String.mk (s.toList.take limit)

/-- The chunk loop of `_extract_first_name`. -/
def firstHit (lastName : String) : List String → Option String
  | [] => none
  | c :: cs =>
    match findNameInText c lastName with
    | some f => some f
    | none => firstHit lastName cs

/-- `_extract_first_name`; `parse` stands for `BeautifulSoup(html,
"html.parser")`. -/
def extractFirstName (parse : String → HNode) (html lastName : String) :
    Option String :=
  if lastName = "" then none
  else
    let soup := parse html
    match firstHit lastName (candidateChunks soup) with
    | some f => some f
    | none =>
      findNameInText (firstN (joinSep " " (strippedOf soup)) 6000) lastName

/-! ### `_fetch` and `_sleep_backoff`

One HTTP attempt either raises `requests.RequestException` or yields a
response with a status code and a body.  Sleeps and log records are the
observable events of a fetch. -/

inductive AttemptOutcome where
  | exn
  | resp (status : Nat) (body : String)

inductive FetchEvent where
  | sleepDelay (d : ℚ)
  | sleepBackoff (d : ℚ)
  | logWarnRequestFailed (attempt : Nat)
  | logWarnStatus (status attempt : Nat)
  | logErrorAuth
  | logErrorLoginPage
deriving DecidableEq

/-- The sign-in markers tested on a 200 body. -/
def hasLoginMarker (body : String) : Bool :=
  containsSub "HarvardKey - Sign In".toList body.toList ||
    containsSub "login-form".toList body.toList

/-- `_sleep_backoff`: sleep `min(delay * 2**(attempt-1), 10)` when that is
positive. -/
def backoffEvents (delay : ℚ) (attempt : Nat) : List FetchEvent :=
  let wait := min (delay * 2 ^ (attempt - 1)) 10
  if 0 < wait then [FetchEvent.sleepBackoff wait] else []

/-- `if self.delay: time.sleep(self.delay)` — performed after every received
response, before the status code is inspected. -/
def delayEvents (delay : ℚ) : List FetchEvent :=
  if delay ≠ 0 then [FetchEvent.sleepDelay delay] else []

/-- The retry loop of `_fetch`, from a given attempt number with a given
number of remaining attempts; returns the result and the event trace. -/
def fetchLoop (delay : ℚ) (env : Nat → AttemptOutcome) :
    Nat → Nat → Option String × List FetchEvent
  | _, 0 => (none, [])
  | attempt, remaining + 1 =>
    match env attempt with
    | .exn =>
      let rest := fetchLoop delay env (attempt + 1) remaining
      (rest.1, FetchEvent.logWarnRequestFailed attempt ::
        (backoffEvents delay attempt ++ rest.2))
    | .resp status body =>
      if status ≠ 200 then
        if status = 401 ∨ status = 403 then
          (none, delayEvents delay ++
            [FetchEvent.logWarnStatus status attempt, FetchEvent.logErrorAuth])
        else
          let rest := fetchLoop delay env (attempt + 1) remaining
          (rest.1, delayEvents delay ++
            FetchEvent.logWarnStatus status attempt ::
              (backoffEvents delay attempt ++ rest.2))
      else if hasLoginMarker body then
        (none, delayEvents delay ++ [FetchEvent.logErrorLoginPage])
      else (some body, delayEvents delay)

/-- `_fetch`: attempts `1 .. max_retries`. -/
def fetchModel (delay : ℚ) (maxRetries : Nat) (env : Nat → AttemptOutcome) :
    Option String × List FetchEvent :=
  fetchLoop delay env 1 maxRetries

/-! ### `resolve` and the URL cache -/

def lookupCache (cache : List (String × Option String)) (url : String) :
    Option (Option String) :=
  match cache with
  | [] => none
  | (k, v) :: rest => if k = url then some v else lookupCache rest url

def setCache (cache : List (String × Option String)) (url : String)
    (v : Option String) : List (String × Option String) :=
  match cache with
  | [] => [(url, v)]
  | (k, w) :: rest =>
    if k = url then (k, v) :: rest else (k, w) :: setCache rest url v

structure ResolveOut where
  value : Option String
  cache : List (String × Option String)
  fetchCalls : Nat

/-- `resolve(url, last_name)` on a resolver with cookie `cookie`, retry
parameters `delay`/`maxRetries`, network oracle `net` (attempt outcomes per
URL) and current cache; `fetchCalls` counts invocations of `_fetch`. -/
def resolveModel (parse : String → HNode) (cookie : String) (delay : ℚ)
    (maxRetries : Nat) (net : String → Nat → AttemptOutcome)
    (cache : List (String × Option String)) (url lastName : String) :
    ResolveOut :=
  let u := stripStr url
  if u = "" then ⟨none, cache, 0⟩
  else
    match lookupCache cache u with
    | some v => ⟨v, cache, 0⟩
    | none =>
      if cookie = "" then ⟨none, setCache cache u none, 0⟩
      else
        match (fetchModel delay maxRetries (net u)).1 with
        | none => ⟨none, setCache cache u none, 1⟩
        | some html =>
          if html = "" then ⟨none, setCache cache u none, 1⟩
          else
            let first := extractFirstName parse html lastName
            ⟨first, setCache cache u first, 1⟩

/-! ### Definitions used only to state claims -/

/-- Following the claim's wording for the candidate selector: keep the first
occurrence of each distinct (nonempty) text, dropping later duplicates. -/
def specDedup : List String → List String
  | [] => []
  | x :: xs =>
    if x = "" then specDedup xs
    else x :: specDedup (xs.filter (fun y => y ≠ x))
termination_by l => l.length
decreasing_by
  · simp only [List.length_cons]; omega
  · simp only [List.length_cons]
    exact Nat.lt_succ_of_le (xs.length_filter_le _)

/-- Following the claim's wording: the document title elements, then the
heading elements of levels 1–3, each in document order. -/
def specTitleHeadingTexts (soup : HNode) : List String :=
  (selectTag "title" soup).map getTextStrip ++
    (selectTag "h1" soup).map getTextStrip ++
    (selectTag "h2" soup).map getTextStrip ++
    (selectTag "h3" soup).map getTextStrip

/-- The invariant claimed for every first name produced by the matcher:
nonempty, free of periods, digits and underscores, and starting with a
character that cleanup has uppercased. -/
def goodName (s : String) : Prop :=
  s ≠ "" ∧ (∀ ch ∈ s.toList, ch ≠ '.' ∧ ch.isDigit = false ∧ ch ≠ '_') ∧
    ∃ c t, s.toList = upCh c :: t

/-- Recognize the inter-request delay events in a fetch trace. -/
def isDelayEvent : FetchEvent → Bool
  | .sleepDelay _ => true
  | _ => false

def delayCount (evs : List FetchEvent) : Nat := (evs.filter isDelayEvent).length

/-- Total seconds slept in a trace (both kinds of sleeps). -/
def sleepAmount : FetchEvent → ℚ
  | .sleepDelay d => d
  | .sleepBackoff d => d
  | _ => 0

def totalSleep (evs : List FetchEvent) : ℚ := (evs.map sleepAmount).sum

/-- Following the amended reading of the delay policy: the number of loop
attempts that received an HTTP response (of any status) before the fetch
loop stopped. -/
def receivedResponseCount (env : Nat → AttemptOutcome) : Nat → Nat → Nat
  | _, 0 => 0
  | attempt, remaining + 1 =>
    match env attempt with
    | .exn => receivedResponseCount env (attempt + 1) remaining
    | .resp status _ =>
      if status ≠ 200 then
        if status = 401 ∨ status = 403 then 1
        else 1 + receivedResponseCount env (attempt + 1) remaining
      else 1

/-- A small concrete report page used to witness the selector claims. -/
def demoSoup : HNode :=
  HNode.elem "[document]"
    [HNode.elem "head" [HNode.elem "title" [HNode.text "Instructor: Ann Smith"]],
     HNode.elem "body" [HNode.text "report body"]]

def demoParse : String → HNode := fun _ => demoSoup

/-! ### Helper lemmas -/

theorem mem_catMaps {α β : Type} {f : α → List β} {b : β} :
    ∀ {l : List α}, b ∈ catMaps f l ↔ ∃ a ∈ l, b ∈ f a := by
  intro l
  induction l with
  | nil => simp [catMaps]
  | cons a as ih => simp [catMaps, ih]

theorem ascii_eval (P : Char → Bool)
    (h : ∀ n : Nat, n < 128 → P (Char.ofNat n) = true)
    (c : Char) (hc : c.toNat < 128) : P c = true := by
  have := h c.toNat hc
  rwa [Char.ofNat_toNat] at this

theorem isAlpha_toNat_lt {c : Char} (h : c.isAlpha = true) : c.toNat < 128 := by
  simp only [Char.isAlpha, Char.isUpper, Char.isLower, Bool.or_eq_true,
    Bool.and_eq_true, decide_eq_true_eq] at h
  rcases h with ⟨_, h2⟩ | ⟨_, h2⟩
  · have := UInt32.toNat_le_of_le (m := 90) (by decide) h2
    simp only [Char.toNat]; omega
  · have := UInt32.toNat_le_of_le (m := 122) (by decide) h2
    simp only [Char.toNat]; omega

theorem upCh_eq_self_of_nonascii {c : Char} (hc : ¬c.toNat < 128) :
    upCh c = c := by
  have h : ¬(97 ≤ c.toNat ∧ c.toNat ≤ 122) := by omega
  simp only [upCh, if_neg h]

theorem upCh_isUpper {c : Char} (h : c.isAlpha = true) :
    (upCh c).isUpper = true := by
  have := ascii_eval (fun c => !c.isAlpha || (upCh c).isUpper)
    (by decide) c (isAlpha_toNat_lt h)
  simpa [h] using this

theorem upCh_not_digit {c : Char} (h : c.isDigit = false) :
    (upCh c).isDigit = false := by
  by_cases hc : c.toNat < 128
  · have := ascii_eval (fun c => c.isDigit || !(upCh c).isDigit) (by decide) c hc
    simpa [h] using this
  · rwa [upCh_eq_self_of_nonascii hc]

theorem upCh_ne_underscore {c : Char} (h : c ≠ '_') : upCh c ≠ '_' := by
  by_cases hc : c.toNat < 128
  · have := ascii_eval (fun c => c == '_' || !(upCh c == '_')) (by decide) c hc
    simpa [h] using this
  · rwa [upCh_eq_self_of_nonascii hc]

theorem upCh_ne_dot {c : Char} (h : c ≠ '.') : upCh c ≠ '.' := by
  by_cases hc : c.toNat < 128
  · have := ascii_eval (fun c => c == '.' || !(upCh c == '.')) (by decide) c hc
    simpa [h] using this
  · rwa [upCh_eq_self_of_nonascii hc]

theorem isLetterCh_not_space {c : Char} (h : isLetterCh c = true) :
    isSpaceCh c = false := by
  simp only [isLetterCh] at h
  have hlt := isAlpha_toNat_lt (c := c) h
  have := ascii_eval (fun c => !c.isAlpha || !isSpaceCh c) (by decide) c hlt
  simpa [h] using this

theorem isLetterCh_ne_dot {c : Char} (h : isLetterCh c = true) : c ≠ '.' := by
  intro hc
  subst hc
  simp [isLetterCh] at h

theorem dropWhile_append_last {α : Type} {p : α → Bool} {c : α}
    (hc : p c = false) :
    ∀ xs : List α, (xs ++ [c]).dropWhile p = xs.dropWhile p ++ [c] := by
  intro xs
  induction xs with
  | nil => simp [List.dropWhile, hc]
  | cons x xs ih =>
    by_cases hx : p x = true
    · simpa [List.dropWhile, hx] using ih
    · simp only [Bool.not_eq_true] at hx
      simp [List.dropWhile, hx]

theorem stripChars_cons_of_head {c : Char} {t : List Char}
    (hc : isSpaceCh c = false) :
    stripChars (c :: t) =
      c :: ((t.reverse.dropWhile isSpaceCh).reverse) := by
  simp only [stripChars, List.dropWhile, hc, List.reverse_cons]
  rw [dropWhile_append_last hc, List.reverse_append]
  rfl

/-- What `_clean_candidate` produces when it succeeds: the stripped,
period-free candidate with its first character uppercased and the remaining
characters kept verbatim; no character of it is a digit or an underscore. -/
theorem cleanCandidateL_some {cand s : List Char}
    (h : cleanCandidateL cand = some s) :
    ∃ c t, (stripChars cand).filter (fun ch => ch ≠ '.') = c :: t ∧
      s = upCh c :: t ∧
      (∀ ch ∈ c :: t, ch.isDigit = false ∧ ch ≠ '_' ∧ ch ≠ '.') := by
  unfold cleanCandidateL at h
  by_cases h1 : stripChars cand = []
  · rw [if_pos h1] at h; exact absurd h (by simp)
  · rw [if_neg h1] at h
    by_cases h2 :
        ((stripChars cand).filter (fun ch => ch ≠ '.')).any
          (fun ch => ch.isDigit || ch = '_') = true
    · rw [if_pos h2] at h; exact absurd h (by simp)
    · rw [if_neg h2] at h
      have hany := List.any_eq_false.mp (Bool.not_eq_true _ ▸ h2)
      have hprop : ∀ ch ∈ (stripChars cand).filter (fun ch => ch ≠ '.'),
          ch.isDigit = false ∧ ch ≠ '_' ∧ ch ≠ '.' := by
        intro ch hch
        have hd := hany ch hch
        simp only [Bool.or_eq_true, not_or, decide_eq_true_eq,
          Bool.not_eq_true] at hd
        have hdot : ch ≠ '.' := by
          have := List.of_mem_filter hch
          simpa using this
        exact ⟨hd.1, hd.2, hdot⟩
      rcases h3 : (stripChars cand).filter (fun ch => ch ≠ '.') with _ | ⟨c, t⟩
      · rw [h3] at h; exact absurd h (by simp)
      · rw [h3] at hprop
        rcases t with _ | ⟨d, t'⟩
        · rw [h3] at h
          refine ⟨c, [], rfl, ?_, hprop⟩
          have := Option.some.inj h
          exact this.symm
        · rw [h3] at h
          refine ⟨c, d :: t', rfl, ?_, hprop⟩
          have := Option.some.inj h
          exact this.symm

theorem tokenSplits_mem {cs : List Char} {p : List Char × List Char}
    (h : p ∈ tokenSplits cs) : ∃ c t, p.1 = c :: t ∧ isLetterCh c = true := by
  rcases cs with _ | ⟨c, rest⟩
  · simp [tokenSplits] at h
  · by_cases hc : isLetterCh c = true
    · simp only [tokenSplits, hc, if_true] at h
      simp only [splitsFrom, List.mem_map] at h
      rcases h with ⟨i, _, hi⟩
      exact ⟨c, _, by rw [← hi], hc⟩
    · simp [tokenSplits, hc] at h

theorem head?_mem {α : Type} {l : List α} {a : α} (h : l.head? = some a) :
    a ∈ l := by
  rcases l with _ | ⟨x, xs⟩
  · simp at h
  · simp only [List.head?] at h
    cases h
    exact List.mem_cons_self _ _

theorem matchFromHere_some {last cs : List Char} {p : List Char × List Char}
    (h : matchFromHere last cs = some p) :
    ∃ c t, p.1 = c :: t ∧ isLetterCh c = true := by
  unfold matchFromHere at h
  have hm := head?_mem h
  rw [mem_catMaps] at hm
  rcases hm with ⟨q, hq, hm⟩
  rw [mem_catMaps] at hm
  rcases hm with ⟨r2, _, hm⟩
  rw [mem_catMaps] at hm
  rcases hm with ⟨r3, _, hm⟩
  rw [List.mem_filterMap] at hm
  rcases hm with ⟨r4, _, hm⟩
  rcases hlit : matchLitCI last r4 with _ | r5
  · rw [hlit] at hm; exact absurd hm (by simp)
  · rw [hlit] at hm
    by_cases hla : lookaheadOk r5 = true
    · simp only [hla, if_true] at hm
      have := Option.some.inj hm
      rw [← this]
      simpa using tokenSplits_mem hq
    · simp [hla] at hm

theorem scanGo_mem {last : List Char} :
    ∀ {fuel : Nat} {pw : Bool} {cs tok : List Char},
      tok ∈ scanGo last fuel pw cs → ∃ c t, tok = c :: t ∧ isLetterCh c = true := by
  intro fuel
  induction fuel with
  | zero => intro pw cs tok h; simp [scanGo] at h
  | succ fuel ih =>
    intro pw cs tok h
    rcases cs with _ | ⟨c, rest⟩
    · simp [scanGo] at h
    · by_cases hp : pw = true
      · rw [hp] at h
        simp only [scanGo, if_true] at h
        exact ih h
      · simp only [Bool.not_eq_true] at hp
        rw [hp] at h
        simp only [scanGo, Bool.false_eq_true, if_false] at h
        rcases hm : matchFromHere last (c :: rest) with _ | q
        · rw [hm] at h
          exact ih h
        · rw [hm] at h
          rcases List.mem_cons.mp h with rfl | h2
          · exact matchFromHere_some hm
          · exact ih h2

theorem extractLoop_some {rc : Bool} :
    ∀ {caps : List (List Char)} {s : List Char},
      extractLoop rc caps = some s →
      ∃ cand ∈ caps, cleanCandidateL cand = some s := by
  intro caps
  induction caps with
  | nil => intro s h; simp [extractLoop] at h
  | cons cand rest ih =>
    intro s h
    by_cases h0 : cand = []
    · rw [h0] at h ⊢
      simp only [extractLoop, if_pos rfl] at h
      rcases ih h with ⟨c, hc, hcl⟩
      exact ⟨c, List.mem_cons_of_mem _ hc, hcl⟩
    · simp only [extractLoop, if_neg h0] at h
      rcases hcl : cleanCandidateL cand with _ | cleaned
      · rw [hcl] at h
        rcases ih h with ⟨c, hc, hc2⟩
        exact ⟨c, List.mem_cons_of_mem _ hc, hc2⟩
      · rw [hcl] at h
        dsimp only at h
        by_cases h1 : (rc && !headUpper cleaned) = true
        · rw [if_pos h1] at h
          rcases ih h with ⟨c, hc, hc2⟩
          exact ⟨c, List.mem_cons_of_mem _ hc, hc2⟩
        · rw [if_neg h1] at h
          by_cases h2 : lowerL cleaned ∈ INVALID_FIRST_TOKENS
          · rw [if_pos h2] at h
            rcases ih h with ⟨c, hc, hc2⟩
            exact ⟨c, List.mem_cons_of_mem _ hc, hc2⟩
          · rw [if_neg h2] at h
            have := Option.some.inj h
            exact ⟨cand, List.mem_cons_self _ _, by rw [hcl, this]⟩

theorem cleanCandidateL_letter_head {c : Char} {t s : List Char}
    (hc : isLetterCh c = true) (h : cleanCandidateL (c :: t) = some s) :
    headUpper s = true := by
  rcases cleanCandidateL_some h with ⟨c', t', hfil, hs, _⟩
  rw [stripChars_cons_of_head (isLetterCh_not_space hc)] at hfil
  rw [List.filter_cons_of_pos (by simpa using isLetterCh_ne_dot hc)] at hfil
  have hcc : c' = c := by
    have := congrArg List.head? hfil
    simpa using this.symm
  subst hcc
  rw [hs]
  simp only [headUpper]
  exact upCh_isUpper (by simpa [isLetterCh] using hc)

theorem extractLoop_rc_eq :
    ∀ {caps : List (List Char)},
      (∀ tok ∈ caps, ∃ c t, tok = c :: t ∧ isLetterCh c = true) →
      extractLoop true caps = extractLoop false caps := by
  intro caps
  induction caps with
  | nil => intro _; rfl
  | cons cand rest ih =>
    intro h
    have hrest := fun tok htok => h tok (List.mem_cons_of_mem _ htok)
    rcases h cand (List.mem_cons_self _ _) with ⟨c, t, rfl, hc⟩
    simp only [extractLoop]
    simp only [if_neg (List.cons_ne_nil c t)]
    rcases hcl : cleanCandidateL (c :: t) with _ | cleaned
    · simpa using ih hrest
    · have hup := cleanCandidateL_letter_head hc hcl
      simp only [hup, Bool.not_true, Bool.and_false, Bool.false_and,
        Bool.false_eq_true, if_false]
      by_cases h2 : lowerL cleaned ∈ INVALID_FIRST_TOKENS
      · simp only [if_pos h2]
        exact ih hrest
      · simp only [if_neg h2]

/-- The capitalization requirement of the strict pass is checked on the
cleaned candidate, whose first character has already been uppercased by
`_clean_candidate`; since every captured token starts with a letter, the
requirement never rejects anything and the strict pass coincides with the
relaxed pass. -/
theorem extract_strict_eq_relaxed (last text : String) :
    extractFromPattern last text true = extractFromPattern last text false := by
  unfold extractFromPattern extractFromPatternL
  have h : ∀ tok ∈ scanCapturesL last.toList text.toList,
      ∃ c t, tok = c :: t ∧ isLetterCh c = true := by
    intro tok htok
    exact scanGo_mem htok
  rw [extractLoop_rc_eq h]

theorem cleanCandidateL_goodName {cand s : List Char}
    (h : cleanCandidateL cand = some s) :
    s ≠ [] ∧ (∀ ch ∈ s, ch ≠ '.' ∧ ch.isDigit = false ∧ ch ≠ '_') ∧
      ∃ c t, s = upCh c :: t := by
  rcases cleanCandidateL_some h with ⟨c, t, _, hs, hall⟩
  subst hs
  refine ⟨by simp, ?_, c, t, rfl⟩
  intro ch hch
  rcases List.mem_cons.mp hch with rfl | hcht
  · have hc := hall c (List.mem_cons_self _ _)
    exact ⟨upCh_ne_dot hc.2.2, upCh_not_digit hc.1, upCh_ne_underscore hc.2.1⟩
  · have hc := hall ch (List.mem_cons_of_mem _ hcht)
    exact ⟨hc.2.2, hc.1, hc.2.1⟩

theorem findNameInTextL_some {text last s : List Char}
    (h : findNameInTextL text last = some s) :
    ∃ cand, cleanCandidateL cand = some s := by
  unfold findNameInTextL at h
  by_cases h0 : (text = [] || last = []) = true
  · rw [if_pos h0] at h; exact absurd h (by simp)
  · rw [if_neg h0] at h
    dsimp only at h
    by_cases h1 : normalizeLastNameL last = []
    · rw [if_pos h1] at h; exact absurd h (by simp)
    · rw [if_neg h1] at h
      by_cases h2 :
          (!containsSub (lowerL (normalizeLastNameL last)) (lowerL text)) = true
      · rw [if_pos h2] at h; exact absurd h (by simp)
      · rw [if_neg h2] at h
        rcases hstrict :
            extractFromPatternL (normalizeLastNameL last) text true with _ | f
        · rw [hstrict] at h
          dsimp only at h
          by_cases h3 :
              STRUCTURED_HINTS.any (fun hw => containsSub hw (lowerL text)) = true
          · rw [if_pos h3] at h
            rcases extractLoop_some h with ⟨cand, _, hcl⟩
            exact ⟨cand, hcl⟩
          · rw [if_neg h3] at h; exact absurd h (by simp)
        · rw [hstrict] at h
          dsimp only at h
          have hs := Option.some.inj h
          rcases extractLoop_some hstrict with ⟨cand, _, hcl⟩
          exact ⟨cand, by rw [hcl, hs]⟩

theorem findNameInText_goodName {text last s : String}
    (h : findNameInText text last = some s) : goodName s := by
  unfold findNameInText at h
  rcases hL : findNameInTextL text.toList last.toList with _ | sl
  · rw [hL] at h; exact absurd h (by simp)
  · rw [hL] at h
    have hs : s = String.mk sl := by
      have := Option.some.inj h
      exact this.symm
    rcases findNameInTextL_some hL with ⟨cand, hcl⟩
    rcases cleanCandidateL_goodName hcl with ⟨hne, hall, c, t, hform⟩
    subst hs
    refine ⟨?_, ?_, c, t, ?_⟩
    · intro hcon
      apply hne
      have : (String.mk sl).toList = ("" : String).toList := by rw [hcon]
      simpa using this
    · intro ch hch
      exact hall ch (by simpa using hch)
    · simpa using hform

theorem firstHit_eq_none {n : String} :
    ∀ {l : List String}, (∀ c ∈ l, findNameInText c n = none) →
      firstHit n l = none := by
  intro l
  induction l with
  | nil => intro _; rfl
  | cons c cs ih =>
    intro h
    simp only [firstHit, h c (List.mem_cons_self _ _)]
    exact ih fun c' hc' => h c' (List.mem_cons_of_mem _ hc')

theorem firstHit_first {n s : String} :
    ∀ {pre : List String} {c : String} {post : List String},
      (∀ c' ∈ pre, findNameInText c' n = none) → findNameInText c n = some s →
      firstHit n (pre ++ c :: post) = some s := by
  intro pre
  induction pre with
  | nil =>
    intro c post _ hc
    simp only [List.nil_append, firstHit, hc]
  | cons p ps ih =>
    intro c post h hc
    simp only [List.cons_append, firstHit, h p (List.mem_cons_self _ _)]
    exact ih (fun c' hc' => h c' (List.mem_cons_of_mem _ hc')) hc

theorem firstHit_some {n : String} :
    ∀ {l : List String} {s : String}, firstHit n l = some s →
      ∃ c ∈ l, findNameInText c n = some s := by
  intro l
  induction l with
  | nil => intro s h; simp [firstHit] at h
  | cons c cs ih =>
    intro s h
    rcases hc : findNameInText c n with _ | f
    · simp only [firstHit, hc] at h
      rcases ih h with ⟨c', hc', he⟩
      exact ⟨c', List.mem_cons_of_mem _ hc', he⟩
    · simp only [firstHit, hc] at h
      exact ⟨c, List.mem_cons_self _ _, by rw [hc, h]⟩

theorem extractFirstName_some {parse : String → HNode} {html lastName s : String}
    (h : extractFirstName parse html lastName = some s) :
    ∃ text, findNameInText text lastName = some s := by
  unfold extractFirstName at h
  by_cases h0 : lastName = ""
  · rw [if_pos h0] at h; exact absurd h (by simp)
  · rw [if_neg h0] at h
    dsimp only at h
    rcases hfh : firstHit lastName (candidateChunks (parse html)) with _ | f
    · rw [hfh] at h
      exact ⟨_, h⟩
    · rw [hfh] at h
      have := Option.some.inj h
      rcases firstHit_some hfh with ⟨c, _, he⟩
      exact ⟨c, by rw [he, this]⟩

theorem dropWhile_append_of_all {α : Type} {p : α → Bool} {ys : List α} :
    ∀ {xs : List α}, (∀ x ∈ xs, p x = true) →
      (xs ++ ys).dropWhile p = ys.dropWhile p := by
  intro xs
  induction xs with
  | nil => intro _; rfl
  | cons x xs ih =>
    intro h
    simp only [List.cons_append, List.dropWhile, h x (List.mem_cons_self _ _)]
    exact ih fun x' hx' => h x' (List.mem_cons_of_mem _ hx')

theorem parenTail_concat {inner : List Char} (hi : ')' ∉ inner) :
    parenTail (inner ++ [')']) = true := by
  unfold parenTail
  rw [dropWhile_append_of_all (p := fun c => c ≠ ')')
    (fun x hx => by
      have hxx : x ≠ ')' := fun he => hi (he ▸ hx)
      simpa using hxx)]
  simp [List.dropWhile]

theorem parenCutIdx_concat {inner : List Char} (hi : ')' ∉ inner) :
    ∀ {s' : List Char}, '(' ∉ s' →
      parenCutIdx (s' ++ ('(' :: (inner ++ [')']))) = some s'.length := by
  intro s'
  induction s' with
  | nil =>
    intro _
    simp [parenCutIdx, parenTail_concat hi]
  | cons c cs ih =>
    intro hs
    have hc : c ≠ '(' := fun h => hs (h ▸ List.mem_cons_self _ _)
    have := ih (fun h => hs (List.mem_cons_of_mem _ h))
    simp [parenCutIdx, hc, this]

theorem normalizeLastNameL_concat {s' inner : List Char} (hs : '(' ∉ s')
    (hi : ')' ∉ inner) :
    normalizeLastNameL (s' ++ ('(' :: (inner ++ [')']))) = stripChars s' := by
  unfold normalizeLastNameL
  rw [parenCutIdx_concat hi hs]
  dsimp only
  rw [List.take_left]

theorem chunkFold_eq_specDedup :
    ∀ (xs seen : List String),
      chunkFold seen xs = specDedup (xs.filter (fun x => decide (¬x ∈ seen))) := by
  intro xs
  induction xs with
  | nil => intro seen; simp [chunkFold, specDedup]
  | cons x xs ih =>
    intro seen
    by_cases hmem : x ∈ seen
    · rw [List.filter_cons_of_neg (by simpa using hmem)]
      simp only [chunkFold, if_neg (by simp [hmem] :
        ¬(x ≠ "" ∧ ¬x ∈ seen))]
      exact ih seen
    · rw [List.filter_cons_of_pos (by simpa using hmem)]
      by_cases hx : x = ""
      · simp only [chunkFold, if_neg (by simp [hx] :
          ¬(x ≠ "" ∧ ¬x ∈ seen))]
        rw [ih seen]
        simp only [specDedup, if_pos hx]
      · simp only [chunkFold, if_pos (⟨hx, hmem⟩ : x ≠ "" ∧ ¬x ∈ seen)]
        rw [ih (x :: seen)]
        simp only [specDedup, if_neg hx]
        congr 1
        congr 1
        rw [List.filter_filter]
        apply List.filter_congr
        intro a _
        by_cases h1 : a = x <;> by_cases h2 : a ∈ seen <;>
          simp [h1, h2, List.mem_cons]

theorem candidateChunks_eq_spec (soup : HNode) :
    candidateChunks soup =
      specDedup (specTitleHeadingTexts soup ++ keywordTexts soup) := by
  unfold candidateChunks
  rw [chunkFold_eq_specDedup]
  congr 1
  rw [List.filter_eq_self.mpr (by intro a _; simp)]
  congr 1
  simp [headingTexts, specTitleHeadingTexts, catMaps, List.append_assoc]

theorem lookupCache_setCache_self :
    ∀ (cache : List (String × Option String)) (u : String) (v : Option String),
      lookupCache (setCache cache u v) u = some v := by
  intro cache
  induction cache with
  | nil => intro u v; simp [setCache, lookupCache]
  | cons kv rest ih =>
    intro u v
    rcases kv with ⟨k, w⟩
    by_cases hk : k = u
    · simp [setCache, hk, lookupCache]
    · simp [setCache, hk, lookupCache, ih]

theorem logErrorAuth_not_mem_resp500 (delay : ℚ) (b : String) :
    ∀ (remaining attempt : Nat),
      ¬FetchEvent.logErrorAuth ∈
        (fetchLoop delay (fun _ => AttemptOutcome.resp 500 b) attempt remaining).2 := by
  intro remaining
  induction remaining with
  | zero => intro attempt; simp [fetchLoop]
  | succ remaining ih =>
    intro attempt
    simp only [fetchLoop]
    intro hmem
    simp only [delayEvents, backoffEvents] at hmem
    split_ifs at hmem <;>
      simp_all [List.mem_append, List.mem_cons]

theorem delayCount_append (a b : List FetchEvent) :
    delayCount (a ++ b) = delayCount a + delayCount b := by
  simp [delayCount, List.filter_append]

theorem delayCount_cons (e : FetchEvent) (l : List FetchEvent) :
    delayCount (e :: l) =
      (if isDelayEvent e = true then 1 else 0) + delayCount l := by
  by_cases he : isDelayEvent e = true
  · simp [delayCount, List.filter_cons, he, Nat.add_comm]
  · simp [delayCount, List.filter_cons, he]

theorem delayCount_delayEvents (delay : ℚ) :
    delayCount (delayEvents delay) = if delay ≠ 0 then 1 else 0 := by
  unfold delayEvents
  split_ifs <;> simp [delayCount, isDelayEvent]

theorem delayCount_backoffEvents (delay : ℚ) (attempt : Nat) :
    delayCount (backoffEvents delay attempt) = 0 := by
  simp only [backoffEvents]
  split_ifs <;> simp [delayCount, isDelayEvent]

/-- The inter-request delay fires exactly once per attempt that received an
HTTP response (of any status), and never for an attempt that raised a
transport error. -/
theorem delayCount_fetchLoop (delay : ℚ) (env : Nat → AttemptOutcome) :
    ∀ (remaining attempt : Nat),
      delayCount (fetchLoop delay env attempt remaining).2 =
        if delay ≠ 0 then receivedResponseCount env attempt remaining else 0 := by
  intro remaining
  induction remaining with
  | zero =>
    intro attempt
    simp [fetchLoop, receivedResponseCount, delayCount]
  | succ remaining ih =>
    intro attempt
    simp only [fetchLoop, receivedResponseCount]
    cases henv : env attempt with
    | exn =>
      simp only [delayCount_cons, delayCount_append, delayCount_backoffEvents,
        isDelayEvent, ih]
      simp
    | resp status body =>
      dsimp only
      by_cases hs : status ≠ 200
      · rw [if_pos hs, if_pos hs]
        by_cases ha : status = 401 ∨ status = 403
        · rw [if_pos ha, if_pos ha]
          simp only [delayCount_append, delayCount_delayEvents]
          by_cases hd : delay ≠ 0 <;>
            simp [hd, delayCount_cons, isDelayEvent, delayCount]
        · rw [if_neg ha, if_neg ha]
          simp only [delayCount_append, delayCount_delayEvents,
            delayCount_cons, delayCount_backoffEvents, isDelayEvent, ih]
          by_cases hd : delay ≠ 0 <;> simp [hd]
      · rw [if_neg hs, if_neg hs]
        by_cases hm : hasLoginMarker body = true
        · rw [if_pos hm]
          simp only [delayCount_append, delayCount_delayEvents]
          by_cases hd : delay ≠ 0 <;>
            simp [hd, delayCount_cons, isDelayEvent, delayCount]
        · rw [if_neg hm]
          simp only [delayCount_delayEvents]

/-- One retryable (non-200, non-auth) step of the fetch loop. -/
theorem fetchLoop_retry_step {delay : ℚ} {env : Nat → AttemptOutcome}
    {attempt remaining status : Nat} {body : String}
    (henv : env attempt = AttemptOutcome.resp status body)
    (hs : ¬status = 200) (ha : ¬(status = 401 ∨ status = 403)) :
    fetchLoop delay env attempt (remaining + 1) =
      ((fetchLoop delay env (attempt + 1) remaining).1,
        delayEvents delay ++
          FetchEvent.logWarnStatus status attempt ::
            (backoffEvents delay attempt ++
              (fetchLoop delay env (attempt + 1) remaining).2)) := by
  simp only [fetchLoop]
  rw [henv]
  dsimp only
  rw [if_pos hs, if_neg ha]

theorem stripStr_eq_empty_of_all_space {u : String}
    (h : u.toList.all isSpaceCh = true) : stripStr u = "" := by
  unfold stripStr stripChars
  have h1 : u.toList.dropWhile isSpaceCh = [] :=
    List.dropWhile_eq_nil_iff.mpr (by simpa [List.all_eq_true] using h)
  rw [h1]
  rfl

/-- Exhaustive case analysis of `resolve`. -/
theorem resolveModel_spec (parse : String → HNode) (cookie : String)
    (delay : ℚ) (r : Nat) (net : String → Nat → AttemptOutcome)
    (cache : List (String × Option String)) (u n : String) :
    (stripStr u = "" ∧
      resolveModel parse cookie delay r net cache u n = ⟨none, cache, 0⟩) ∨
    (∃ v, ¬stripStr u = "" ∧ lookupCache cache (stripStr u) = some v ∧
      resolveModel parse cookie delay r net cache u n = ⟨v, cache, 0⟩) ∨
    (¬stripStr u = "" ∧ lookupCache cache (stripStr u) = none ∧ cookie = "" ∧
      resolveModel parse cookie delay r net cache u n =
        ⟨none, setCache cache (stripStr u) none, 0⟩) ∨
    (¬stripStr u = "" ∧ lookupCache cache (stripStr u) = none ∧ ¬cookie = "" ∧
      ((fetchModel delay r (net (stripStr u))).1 = none ∨
        (fetchModel delay r (net (stripStr u))).1 = some "") ∧
      resolveModel parse cookie delay r net cache u n =
        ⟨none, setCache cache (stripStr u) none, 1⟩) ∨
    (∃ html, ¬stripStr u = "" ∧ lookupCache cache (stripStr u) = none ∧
      ¬cookie = "" ∧ (fetchModel delay r (net (stripStr u))).1 = some html ∧
      ¬html = "" ∧
      resolveModel parse cookie delay r net cache u n =
        ⟨extractFirstName parse html n,
          setCache cache (stripStr u) (extractFirstName parse html n), 1⟩) := by
  by_cases hu : stripStr u = ""
  · exact Or.inl ⟨hu, by unfold resolveModel; rw [if_pos hu]⟩
  · rcases hl : lookupCache cache (stripStr u) with _ | v
    · by_cases hc : cookie = ""
      · refine Or.inr (Or.inr (Or.inl ⟨hu, rfl, hc, ?_⟩))
        unfold resolveModel
        rw [if_neg hu]
        dsimp only
        rw [hl]
        dsimp only
        rw [if_pos hc]
      · rcases hf : (fetchModel delay r (net (stripStr u))).1 with _ | html
        · refine Or.inr (Or.inr (Or.inr (Or.inl ⟨hu, rfl, hc, Or.inl rfl, ?_⟩)))
          unfold resolveModel
          rw [if_neg hu]
          dsimp only
          rw [hl]
          dsimp only
          rw [if_neg hc, hf]
        · by_cases hh : html = ""
          · subst hh
            refine Or.inr (Or.inr (Or.inr (Or.inl ⟨hu, rfl, hc, Or.inr rfl, ?_⟩)))
            unfold resolveModel
            rw [if_neg hu]
            dsimp only
            rw [hl]
            dsimp only
            rw [if_neg hc, hf]
            dsimp only
            rw [if_pos rfl]
          · refine Or.inr (Or.inr (Or.inr (Or.inr ⟨html, hu, rfl, hc, rfl, hh, ?_⟩)))
            unfold resolveModel
            rw [if_neg hu]
            dsimp only
            rw [hl]
            dsimp only
            rw [if_neg hc, hf]
            dsimp only
            rw [if_neg hh]
    · refine Or.inr (Or.inl ⟨v, hu, rfl, ?_⟩)
      unfold resolveModel
      rw [if_neg hu]
      dsimp only
      rw [hl]

/-! ### The claims -/

/-- C1 (counterexample): for the chunk "this is jane smith's course" with
last name "Smith" the strict (capitalization-required) pass does not return
none — it returns "This", the cleanup of the lowercase capture "this" — and
hence the overall match, with no structural hint present, is "This" rather
than none. -/
theorem c1_counterexample :
    extractFromPattern "Smith" "this is jane smith's course" true = some "This" ∧
    findNameInText "this is jane smith's course" "Smith" = some "This" ∧
    ¬findNameInText "this is jane smith's course" "Smith" = none := by
  exact ⟨by decide, by decide, by decide⟩

/-- C1 (amended): the strict pass checks capitalization on the cleaned
candidate, whose first character `_clean_candidate` has already uppercased;
since every captured token starts with a letter, the check never rejects
anything: the strict pass coincides with the relaxed pass on every input
(the match is effectively case-insensitive on the candidate first name's
leading letter), and for the chunk "this is jane smith's course" with last
name "Smith" the strict pass — and the overall match, without any hint —
returns "This". -/
theorem c1_amended :
    (∀ last text : String,
      extractFromPattern last text true = extractFromPattern last text false) ∧
    extractFromPattern "Smith" "this is jane smith's course" true = some "This" ∧
    findNameInText "this is jane smith's course" "Smith" = some "This" :=
  ⟨extract_strict_eq_relaxed, by decide, by decide⟩

/-- C2 (counterexample): matching the text "Dr. Jane Smith" with last name
"Smith (she/her)" does not yield "Jane" — it yields none: the only
(non-overlapping) pattern match captures "Dr", which the blocklist rejects,
and the scan resumes only after that match's end. -/
theorem c2_counterexample :
    ¬findNameInText "Dr. Jane Smith" "Smith (she/her)" = some "Jane" ∧
    findNameInText "Dr. Jane Smith" "Smith (she/her)" = none := by
  exact ⟨by decide, by decide⟩

/-- C2 (amended): normalization does strip a trailing parenthetical
qualifier from every last name (in particular "Smith (she/her)" becomes
"Smith"); for "Dr. Jane Smith" the single non-overlapping match captures
"Dr", which is blocklist-rejected, and since iteration continues only after
the end of that match (which spans through "Smith"), the matcher returns
none, not "Jane". -/
theorem c2_amended :
    (∀ s inner : String, ¬ '(' ∈ s.toList → ¬ ')' ∈ inner.toList →
      normalizeLastName (s ++ "(" ++ inner ++ ")") = stripStr s) ∧
    normalizeLastName "Smith (she/her)" = "Smith" ∧
    scanCaptures "Smith" "Dr. Jane Smith" = ["Dr"] ∧
    cleanCandidate "Dr" = some "Dr" ∧
    lowerL "Dr".toList ∈ INVALID_FIRST_TOKENS ∧
    findNameInText "Dr. Jane Smith" "Smith (she/her)" = none := by
  refine ⟨?_, by decide, by decide, by decide, by decide, by decide⟩
  intro s inner hs hi
  unfold normalizeLastName stripStr
  congr 1
  have h2 : (s ++ "(" ++ inner ++ ")").toList =
      s.toList ++ ('(' :: (inner.toList ++ [')'])) := by
    have ha : ∀ a b : String, (a ++ b).toList = a.toList ++ b.toList :=
      fun a b => String.data_append a b
    rw [ha, ha, ha]
    simp [List.append_assoc]
  rw [h2]
  exact normalizeLastNameL_concat hs hi

/-- C2 (amended, witness). -/
theorem c2_amended_witness :
    normalizeLastName ("Jones" ++ "(" ++ "they/them" ++ ")") = stripStr "Jones" :=
  c2_amended.1 "Jones" "they/them" (by decide) (by decide)

/-- C3 (counterexample): at the fetcher's result the two failures are not
distinguishable: a first-attempt 403 and three exhausted attempts of 500
both return `none`. -/
theorem c3_counterexample :
    (fetchModel 0 3 (fun _ => AttemptOutcome.resp 403 "x")).1 = none ∧
    (fetchModel 0 3 (fun _ => AttemptOutcome.resp 500 "x")).1 = none ∧
    (fetchModel 0 3 (fun _ => AttemptOutcome.resp 403 "x")).1 =
      (fetchModel 0 3 (fun _ => AttemptOutcome.resp 500 "x")).1 := by
  exact ⟨by decide, by decide, by decide⟩

/-- C3 (amended): a fetch whose first attempt receives 401 or 403 performs
no further attempts (its outcome does not depend on the outcomes of later
attempts) and logs an authentication error; its returned value is `none`,
the same value returned after exhausting the retries on 500, and the two
failure classes are distinguishable only in the emitted events (the
authentication error log is present for 401/403, absent for 500
exhaustion), not in the returned value. -/
theorem c3_amended :
    ∀ (delay : ℚ) (r : Nat) (env env' : Nat → AttemptOutcome) (status : Nat)
      (body : String),
      status = 401 ∨ status = 403 → env 1 = AttemptOutcome.resp status body →
      (fetchModel delay (r + 1) env).1 = none ∧
      FetchEvent.logErrorAuth ∈ (fetchModel delay (r + 1) env).2 ∧
      (env' 1 = env 1 → fetchModel delay (r + 1) env' = fetchModel delay (r + 1) env) ∧
      (∀ b2 : String, ¬FetchEvent.logErrorAuth ∈
        (fetchModel delay (r + 1) (fun _ => AttemptOutcome.resp 500 b2)).2) := by
  intro delay r env env' status body ha henv
  have hs : ¬status = 200 := by rcases ha with rfl | rfl <;> decide
  have step : ∀ e : Nat → AttemptOutcome, e 1 = AttemptOutcome.resp status body →
      fetchModel delay (r + 1) e =
        (none, delayEvents delay ++
          [FetchEvent.logWarnStatus status 1, FetchEvent.logErrorAuth]) := by
    intro e he
    unfold fetchModel
    simp only [fetchLoop]
    rw [he]
    dsimp only
    rw [if_pos hs, if_pos ha]
  refine ⟨by rw [step env henv], ?_, ?_, ?_⟩
  · rw [step env henv]
    by_cases hd : delay ≠ 0 <;> simp [delayEvents, hd]
  · intro he'
    rw [step env' (he'.trans henv), step env henv]
  · intro b2
    exact logErrorAuth_not_mem_resp500 delay b2 (r + 1) 1

/-- C3 (amended, witness). -/
theorem c3_amended_witness :
    (fetchModel 0 3 (fun _ => AttemptOutcome.resp 403 "y")).1 = none :=
  (c3_amended 0 2 (fun _ => AttemptOutcome.resp 403 "y")
    (fun _ => AttemptOutcome.resp 403 "y") 403 "y" (Or.inr rfl) rfl).1

/-- C4: an attempt that receives HTTP 200 with a sign-in/login marker in the
body terminates the fetch immediately with a failure (`none`) and an
authentication error log, regardless of how many attempts remain, and the
outcome does not depend on the outcomes of any other attempt. -/
theorem c4_login_marker_terminal :
    ∀ (delay : ℚ) (env : Nat → AttemptOutcome) (attempt remaining : Nat)
      (body : String),
      env attempt = AttemptOutcome.resp 200 body → hasLoginMarker body = true →
      fetchLoop delay env attempt (remaining + 1) =
        (none, delayEvents delay ++ [FetchEvent.logErrorLoginPage]) ∧
      (∀ (env' : Nat → AttemptOutcome) (remaining' : Nat),
        env' attempt = AttemptOutcome.resp 200 body →
        fetchLoop delay env' attempt (remaining' + 1) =
          fetchLoop delay env attempt (remaining + 1)) := by
  intro delay env attempt remaining body henv hm
  have step : ∀ (e : Nat → AttemptOutcome) (rem : Nat),
      e attempt = AttemptOutcome.resp 200 body →
      fetchLoop delay e attempt (rem + 1) =
        (none, delayEvents delay ++ [FetchEvent.logErrorLoginPage]) := by
    intro e rem he
    simp only [fetchLoop]
    rw [he]
    dsimp only
    rw [if_neg (by simp), if_pos hm]
  exact ⟨step env remaining henv,
    fun env' rem' he' => by rw [step env' rem' he', step env remaining henv]⟩

/-- C4 (witness). -/
theorem c4_login_marker_terminal_witness :
    fetchLoop 0 (fun _ => AttemptOutcome.resp 200 "a login-form b") 1 (2 + 1) =
      (none, delayEvents 0 ++ [FetchEvent.logErrorLoginPage]) :=
  (c4_login_marker_terminal 0 (fun _ => AttemptOutcome.resp 200 "a login-form b")
    1 2 "a login-form b" rfl (by decide)).1

/-- C5 (counterexample): with delay 1 and a first attempt that returns
HTTP 500, the fetcher sleeps twice before attempt 2 — the fixed 1-second
inter-request delay (slept before the status check) and then the 1-second
backoff — a total of 2 seconds, not exactly min(1·2⁰, 10) = 1 second as the
claim states. -/
theorem c5_counterexample :
    (fetchModel 1 2 (fun _ => AttemptOutcome.resp 500 "")).1 = none ∧
    (fetchModel 1 2 (fun _ => AttemptOutcome.resp 500 "")).2 =
      [FetchEvent.sleepDelay 1, FetchEvent.logWarnStatus 500 1,
        FetchEvent.sleepBackoff 1, FetchEvent.sleepDelay 1,
        FetchEvent.logWarnStatus 500 2, FetchEvent.sleepBackoff 2] ∧
    totalSleep [FetchEvent.sleepDelay 1, FetchEvent.sleepBackoff 1] = 2 ∧
    ¬min ((1 : ℚ) * 2 ^ (1 - 1)) 10 = 2 := by
  have e1 : (1 : ℚ) * 2 ^ (1 - 1) = 1 := by norm_num
  have e2 : (1 : ℚ) * 2 ^ (2 - 1) = 2 := by norm_num
  have m1 : min ((1 : ℚ) * 2 ^ (1 - 1)) 10 = 1 := by
    rw [e1]; exact min_eq_left (by norm_num)
  have m2 : min ((1 : ℚ) * 2 ^ (2 - 1)) 10 = 2 := by
    rw [e2]; exact min_eq_left (by norm_num)
  have hde : delayEvents (1 : ℚ) = [FetchEvent.sleepDelay 1] := by
    simp [delayEvents]
  have hbe1 : backoffEvents (1 : ℚ) 1 = [FetchEvent.sleepBackoff 1] := by
    simp only [backoffEvents, m1]
    rw [if_pos (by norm_num : (0 : ℚ) < 1)]
  have hbe2 : backoffEvents (1 : ℚ) 2 = [FetchEvent.sleepBackoff 2] := by
    simp only [backoffEvents, m2]
    rw [if_pos (by norm_num : (0 : ℚ) < 2)]
  have s2 : fetchLoop 1 (fun _ => AttemptOutcome.resp 500 "") 2 1 =
      ((fetchLoop 1 (fun _ => AttemptOutcome.resp 500 "") 3 0).1,
        delayEvents 1 ++
          FetchEvent.logWarnStatus 500 2 ::
            (backoffEvents 1 2 ++
              (fetchLoop 1 (fun _ => AttemptOutcome.resp 500 "") 3 0).2)) := by
    show fetchLoop 1 _ 2 (0 + 1) = _
    exact fetchLoop_retry_step rfl (by norm_num) (by norm_num)
  have s1 : fetchModel 1 2 (fun _ => AttemptOutcome.resp 500 "") =
      ((fetchLoop 1 (fun _ => AttemptOutcome.resp 500 "") 2 1).1,
        delayEvents 1 ++
          FetchEvent.logWarnStatus 500 1 ::
            (backoffEvents 1 1 ++
              (fetchLoop 1 (fun _ => AttemptOutcome.resp 500 "") 2 1).2)) := by
    show fetchLoop 1 _ 1 (1 + 1) = _
    exact fetchLoop_retry_step rfl (by norm_num) (by norm_num)
  have hz : fetchLoop 1 (fun _ => AttemptOutcome.resp 500 "") 3 0 =
      (none, []) := rfl
  refine ⟨?_, ?_, ?_, ?_⟩
  · rw [s1, s2, hz]
  · rw [s1, s2, hz, hde, hbe1, hbe2]
    rfl
  · simp [totalSleep, sleepAmount]
    norm_num
  · rw [m1]
    norm_num

/-- C5 (amended): after a transport-level error on attempt n the fetcher
sleeps exactly min(delay·2^(n-1), 10) seconds (no sleep event when that
bound is zero) — this backoff is performed even when no attempts remain;
after a retryable non-200 response it sleeps the fixed inter-request delay
first and then the same backoff, a total of delay + min(delay·2^(n-1), 10)
seconds before the next attempt. -/
theorem c5_amended :
    ∀ delay : ℚ, 0 ≤ delay →
    ∀ (env : Nat → AttemptOutcome) (attempt remaining : Nat),
      (env attempt = AttemptOutcome.exn →
        fetchLoop delay env attempt (remaining + 1) =
          ((fetchLoop delay env (attempt + 1) remaining).1,
            FetchEvent.logWarnRequestFailed attempt ::
              (backoffEvents delay attempt ++
                (fetchLoop delay env (attempt + 1) remaining).2)) ∧
        totalSleep (backoffEvents delay attempt) =
          min (delay * 2 ^ (attempt - 1)) 10) ∧
      (∀ (status : Nat) (body : String),
        env attempt = AttemptOutcome.resp status body →
        ¬status = 200 → ¬(status = 401 ∨ status = 403) →
        fetchLoop delay env attempt (remaining + 1) =
          ((fetchLoop delay env (attempt + 1) remaining).1,
            delayEvents delay ++
              FetchEvent.logWarnStatus status attempt ::
                (backoffEvents delay attempt ++
                  (fetchLoop delay env (attempt + 1) remaining).2)) ∧
        totalSleep (delayEvents delay ++ backoffEvents delay attempt) =
          delay + min (delay * 2 ^ (attempt - 1)) 10) := by
  intro delay hd env attempt remaining
  have tsb : totalSleep (backoffEvents delay attempt) =
      min (delay * 2 ^ (attempt - 1)) 10 := by
    simp only [backoffEvents]
    by_cases hw : 0 < min (delay * 2 ^ (attempt - 1)) 10
    · rw [if_pos hw]
      simp [totalSleep, sleepAmount]
    · rw [if_neg hw]
      have h0 : (0 : ℚ) ≤ min (delay * 2 ^ (attempt - 1)) 10 :=
        le_min (mul_nonneg hd (by positivity)) (by norm_num)
      have hz : min (delay * 2 ^ (attempt - 1)) 10 = 0 :=
        le_antisymm (not_lt.mp hw) h0
      simp [totalSleep, hz]
  have tsd : totalSleep (delayEvents delay) = delay := by
    simp only [delayEvents]
    by_cases hd0 : delay ≠ 0
    · rw [if_pos hd0]
      simp [totalSleep, sleepAmount]
    · rw [if_neg hd0]
      push_neg at hd0
      simp [totalSleep, hd0]
  constructor
  · intro henv
    constructor
    · simp only [fetchLoop]
      rw [henv]
    · exact tsb
  · intro status body henv hs ha
    constructor
    · simp only [fetchLoop]
      rw [henv]
      dsimp only
      rw [if_pos hs, if_neg ha]
    · rw [totalSleep, List.map_append, List.sum_append, ← totalSleep, ← totalSleep,
        tsd, tsb]

/-- C5 (amended, witness). -/
theorem c5_amended_witness :
    totalSleep (backoffEvents 1 1) = min ((1 : ℚ) * 2 ^ (1 - 1)) 10 :=
  ((c5_amended 1 (by norm_num) (fun _ => AttemptOutcome.exn) 1 0).1 rfl).2

/-- C6 (counterexample): with delay 1, max_retries 1 and a single attempt
that returns HTTP 500, the fetch fails (no successful response was ever
received) yet one inter-request delay event occurs, following the final
failed attempt — contradicting "exactly once per successful response and
never after the final failed attempt". -/
theorem c6_counterexample :
    (fetchModel 1 1 (fun _ => AttemptOutcome.resp 500 "")).1 = none ∧
    delayCount (fetchModel 1 1 (fun _ => AttemptOutcome.resp 500 "")).2 = 1 := by
  have s1 : fetchModel 1 1 (fun _ => AttemptOutcome.resp 500 "") =
      ((fetchLoop 1 (fun _ => AttemptOutcome.resp 500 "") 2 0).1,
        delayEvents 1 ++
          FetchEvent.logWarnStatus 500 1 ::
            (backoffEvents 1 1 ++
              (fetchLoop 1 (fun _ => AttemptOutcome.resp 500 "") 2 0).2)) := by
    show fetchLoop 1 _ 1 (0 + 1) = _
    exact fetchLoop_retry_step rfl (by norm_num) (by norm_num)
  have hz : fetchLoop 1 (fun _ => AttemptOutcome.resp 500 "") 2 0 =
      (none, []) := rfl
  constructor
  · rw [s1, hz]
  · rw [s1, hz]
    simp only [delayCount_append, delayCount_cons, delayCount_delayEvents,
      delayCount_backoffEvents, isDelayEvent]
    norm_num [delayCount]

/-- C6 (amended): when delay is nonzero the inter-request delay event
occurs exactly once per attempt that received an HTTP response — of any
status, including the final failed attempt — and never for attempts that
raised transport errors; with delay 0 it never occurs. -/
theorem c6_amended :
    ∀ (delay : ℚ) (maxRetries : Nat) (env : Nat → AttemptOutcome),
      delayCount (fetchModel delay maxRetries env).2 =
        if delay ≠ 0 then receivedResponseCount env 1 maxRetries else 0 :=
  fun delay maxRetries env => delayCount_fetchLoop delay env maxRetries 1

theorem resolveModel_cache_hit {parse : String → HNode} {cookie : String}
    {delay : ℚ} {r : Nat} {net : String → Nat → AttemptOutcome}
    {cache : List (String × Option String)} {u n : String} {v : Option String}
    (hu : ¬stripStr u = "") (hl : lookupCache cache (stripStr u) = some v) :
    resolveModel parse cookie delay r net cache u n = ⟨v, cache, 0⟩ := by
  unfold resolveModel
  rw [if_neg hu]
  dsimp only
  rw [hl]

/-- C7: resolving the same (url, last name) pair twice issues at most one
fetch in total — the second call is a cache hit returning the same value and
leaving the cache unchanged — and the cache stores exactly the returned
value; on a fresh URL with a cookie, both a failed fetch (no body or an
empty body) and a fetched page in which no name matched leave the same
cached/returned value, none. -/
theorem c7_resolve_idempotent :
    ∀ (parse : String → HNode) (cookie : String) (delay : ℚ) (r : Nat)
      (net : String → Nat → AttemptOutcome)
      (cache : List (String × Option String)) (u n : String)
      (v1 : Option String) (c1 : List (String × Option String)) (k1 : Nat),
      resolveModel parse cookie delay r net cache u n = ⟨v1, c1, k1⟩ →
      resolveModel parse cookie delay r net c1 u n = ⟨v1, c1, 0⟩ ∧
      k1 ≤ 1 ∧
      (¬stripStr u = "" → lookupCache c1 (stripStr u) = some v1) ∧
      (lookupCache cache (stripStr u) = none → ¬cookie = "" →
        ((fetchModel delay r (net (stripStr u))).1 = none ∨
          (fetchModel delay r (net (stripStr u))).1 = some "" ∨
          (∃ html, (fetchModel delay r (net (stripStr u))).1 = some html ∧
            extractFirstName parse html n = none)) →
        v1 = none) := by
  intro parse cookie delay r net cache u n v1 c1 k1 h
  rcases resolveModel_spec parse cookie delay r net cache u n with
    ⟨hu, he⟩ | ⟨v, hu, hl, he⟩ | ⟨hu, hl, hc, he⟩ | ⟨hu, hl, hc, hf, he⟩ |
    ⟨html, hu, hl, hc, hf, hh, he⟩
  · have he' := he
    rw [h] at he'
    simp only [ResolveOut.mk.injEq] at he'
    obtain ⟨rfl, rfl, rfl⟩ := he'
    refine ⟨?_, by norm_num, fun h' => absurd hu h', fun _ _ _ => rfl⟩
    unfold resolveModel
    rw [if_pos hu]
  · have he' := he
    rw [h] at he'
    simp only [ResolveOut.mk.injEq] at he'
    obtain ⟨rfl, rfl, rfl⟩ := he'
    refine ⟨resolveModel_cache_hit hu hl, by norm_num, fun _ => hl, ?_⟩
    intro hnone _ _
    rw [hl] at hnone
    exact absurd hnone (by simp)
  · have he' := he
    rw [h] at he'
    simp only [ResolveOut.mk.injEq] at he'
    obtain ⟨rfl, rfl, rfl⟩ := he'
    refine ⟨resolveModel_cache_hit hu (lookupCache_setCache_self cache _ _),
      by norm_num, fun _ => lookupCache_setCache_self cache _ _,
      fun _ _ _ => rfl⟩
  · have he' := he
    rw [h] at he'
    simp only [ResolveOut.mk.injEq] at he'
    obtain ⟨rfl, rfl, rfl⟩ := he'
    refine ⟨resolveModel_cache_hit hu (lookupCache_setCache_self cache _ _),
      by norm_num, fun _ => lookupCache_setCache_self cache _ _,
      fun _ _ _ => rfl⟩
  · have he' := he
    rw [h] at he'
    simp only [ResolveOut.mk.injEq] at he'
    obtain ⟨rfl, rfl, rfl⟩ := he'
    refine ⟨resolveModel_cache_hit hu (lookupCache_setCache_self cache _ _),
      by norm_num, fun _ => lookupCache_setCache_self cache _ _, ?_⟩
    intro _ _ hdisj
    rcases hdisj with hd | hd | ⟨html', hf', hext⟩
    · rw [hf] at hd; exact absurd hd (by simp)
    · rw [hf] at hd
      have : html = "" := by simpa using hd
      exact absurd this hh
    · rw [hf] at hf'
      have : html = html' := by simpa using hf'
      rw [this]
      exact hext

/-- C7 (witness). -/
theorem c7_resolve_idempotent_witness :
    resolveModel demoParse "c" 0 1 (fun _ _ => AttemptOutcome.exn)
        [("http://a", none)] "http://a" "Smith" =
      ⟨none, [("http://a", none)], 0⟩ ∧
    lookupCache [("http://a", none)] (stripStr "http://a") = some none := by
  have h := c7_resolve_idempotent demoParse "c" 0 1
    (fun _ _ => AttemptOutcome.exn) [] "http://a" "Smith" none
    [("http://a", none)] 1 rfl
  exact ⟨h.1, h.2.2.1 (by decide)⟩

/-- C8: the candidate selector yields the distinct nonempty texts of the
title elements and the level 1–3 headings (in that group order, each group
in document order), then, per role-keyword pattern, the enclosing-element
text of every matching text node, deduplicated against everything already
yielded; the resolver falls back to the 6000-character-truncated
concatenation of all visible stripped text only after every earlier chunk
failed to match, and otherwise returns the match of the first matching
chunk. -/
theorem c8_candidate_selector :
    ∀ (soup : HNode) (parse : String → HNode) (html lastName : String),
      candidateChunks soup =
        specDedup (specTitleHeadingTexts soup ++ keywordTexts soup) ∧
      (¬lastName = "" →
        ((∀ c ∈ candidateChunks (parse html), findNameInText c lastName = none) →
          extractFirstName parse html lastName =
            findNameInText (firstN (joinSep " " (strippedOf (parse html))) 6000)
              lastName) ∧
        (∀ (pre : List String) (c : String) (post : List String) (s : String),
          candidateChunks (parse html) = pre ++ c :: post →
          (∀ c' ∈ pre, findNameInText c' lastName = none) →
          findNameInText c lastName = some s →
          extractFirstName parse html lastName = some s)) := by
  intro soup parse html lastName
  refine ⟨candidateChunks_eq_spec soup, fun hn => ⟨?_, ?_⟩⟩
  · intro hall
    unfold extractFirstName
    rw [if_neg hn]
    dsimp only
    rw [firstHit_eq_none hall]
  · intro pre c post s hsplit hpre hc
    unfold extractFirstName
    rw [if_neg hn]
    dsimp only
    rw [hsplit, firstHit_first hpre hc]

/-- C8 (witness). -/
theorem c8_candidate_selector_witness :
    extractFirstName demoParse "x" "Smith" = some "Ann" := by
  have h := (c8_candidate_selector demoSoup demoParse "x" "Smith").2 (by decide)
  exact h.2 [] "Instructor: Ann Smith" [] "Ann" (by decide) (by simp) (by decide)

/-- C9: every first name produced by the matcher — in the relaxed pass as
well as the strict pass — and hence by the resolver, is nonempty and
contains no period, digit or underscore, and is the stripped, period-free
captured token with its first character uppercased by cleanup and every
later character kept verbatim. -/
theorem c9_output_invariant :
    (∀ cand s : String, cleanCandidate cand = some s →
      ∃ c t, (stripChars cand.toList).filter (fun ch => ch ≠ '.') = c :: t ∧
        s.toList = upCh c :: t) ∧
    (∀ (last text : String) (rc : Bool) (s : String),
      extractFromPattern last text rc = some s → goodName s) ∧
    (∀ text last s : String, findNameInText text last = some s → goodName s) ∧
    (∀ (parse : String → HNode) (cookie : String) (delay : ℚ) (r : Nat)
      (net : String → Nat → AttemptOutcome) (u n s : String),
      (resolveModel parse cookie delay r net [] u n).value = some s →
      goodName s) := by
  refine ⟨?_, ?_, ?_, ?_⟩
  · intro cand s h
    unfold cleanCandidate at h
    rcases hL : cleanCandidateL cand.toList with _ | sl
    · rw [hL] at h; exact absurd h (by simp)
    · rw [hL] at h
      have hs : s = String.mk sl := (Option.some.inj h).symm
      rcases cleanCandidateL_some hL with ⟨c, t, hfil, hform, _⟩
      subst hs
      exact ⟨c, t, hfil, by simpa using hform⟩
  · intro last text rc s h
    unfold extractFromPattern at h
    rcases hL : extractFromPatternL last.toList text.toList rc with _ | sl
    · rw [hL] at h; exact absurd h (by simp)
    · rw [hL] at h
      have hs : s = String.mk sl := (Option.some.inj h).symm
      rcases extractLoop_some hL with ⟨cand, _, hcl⟩
      rcases cleanCandidateL_goodName hcl with ⟨hne, hall, c, t, hform⟩
      subst hs
      refine ⟨fun hcon => hne (by simpa using congrArg String.toList hcon),
        fun ch hch => hall ch (by simpa using hch), c, t, by simpa using hform⟩
  · intro text last s h
    exact findNameInText_goodName h
  · intro parse cookie delay r net u n s h
    rcases resolveModel_spec parse cookie delay r net [] u n with
      ⟨_, he⟩ | ⟨v, _, hl, _⟩ | ⟨_, _, _, he⟩ | ⟨_, _, _, _, he⟩ |
      ⟨html, _, _, _, _, _, he⟩
    · rw [he] at h; exact absurd h (by simp)
    · exact absurd hl (by simp [lookupCache])
    · rw [he] at h; exact absurd h (by simp)
    · rw [he] at h; exact absurd h (by simp)
    · rw [he] at h
      have h2 : extractFirstName parse html n = some s := by simpa using h
      rcases extractFirstName_some h2 with ⟨text, hf⟩
      exact findNameInText_goodName hf

/-- C9 (witness). -/
theorem c9_output_invariant_witness : goodName "Maria" :=
  c9_output_invariant.2.2.1
    "Course Feedback for ECON 101 - Instructor: Maria Garcia-Lopez"
    "Garcia-Lopez" "Maria" (by decide)

/-- C10: the resolution cache is keyed by the URL alone — after a first call
with last name n1, a later call for the same URL with any last name n2
returns the same value without fetching and leaves the cache unchanged — and
a call with an empty or whitespace-only URL returns none without fetching
and without writing to the cache. -/
theorem c10_cache_keyed_by_url :
    ∀ (parse : String → HNode) (cookie : String) (delay : ℚ) (r : Nat)
      (net : String → Nat → AttemptOutcome)
      (cache : List (String × Option String)) (u n1 n2 : String)
      (v1 : Option String) (c1 : List (String × Option String)) (k1 : Nat),
      resolveModel parse cookie delay r net cache u n1 = ⟨v1, c1, k1⟩ →
      resolveModel parse cookie delay r net c1 u n2 = ⟨v1, c1, 0⟩ ∧
      (∀ (n : String) (cache0 : List (String × Option String)),
        u.toList.all isSpaceCh = true →
        resolveModel parse cookie delay r net cache0 u n = ⟨none, cache0, 0⟩) := by
  intro parse cookie delay r net cache u n1 n2 v1 c1 k1 h
  constructor
  · rcases resolveModel_spec parse cookie delay r net cache u n1 with
      ⟨hu, he⟩ | ⟨v, hu, hl, he⟩ | ⟨hu, hl, hc, he⟩ | ⟨hu, hl, hc, hf, he⟩ |
      ⟨html, hu, hl, hc, hf, hh, he⟩
    · rw [h] at he
      simp only [ResolveOut.mk.injEq] at he
      obtain ⟨rfl, rfl, rfl⟩ := he
      unfold resolveModel
      rw [if_pos hu]
    · rw [h] at he
      simp only [ResolveOut.mk.injEq] at he
      obtain ⟨rfl, rfl, rfl⟩ := he
      exact resolveModel_cache_hit hu hl
    · rw [h] at he
      simp only [ResolveOut.mk.injEq] at he
      obtain ⟨rfl, rfl, rfl⟩ := he
      exact resolveModel_cache_hit hu (lookupCache_setCache_self cache _ _)
    · rw [h] at he
      simp only [ResolveOut.mk.injEq] at he
      obtain ⟨rfl, rfl, rfl⟩ := he
      exact resolveModel_cache_hit hu (lookupCache_setCache_self cache _ _)
    · rw [h] at he
      simp only [ResolveOut.mk.injEq] at he
      obtain ⟨rfl, rfl, rfl⟩ := he
      exact resolveModel_cache_hit hu (lookupCache_setCache_self cache _ _)
  · intro n cache0 hws
    unfold resolveModel
    rw [if_pos (stripStr_eq_empty_of_all_space hws)]

/-- C10 (witness). -/
theorem c10_cache_keyed_by_url_witness :
    resolveModel demoParse "c" 0 1 (fun _ _ => AttemptOutcome.exn) [] "  "
        "Smith" = ⟨none, [], 0⟩ :=
  (c10_cache_keyed_by_url demoParse "c" 0 1 (fun _ _ => AttemptOutcome.exn)
    [] "  " "Smith" "Jones" none [] 0 rfl).2 "Smith" [] (by decide)
